import Mathlib

/-!
Verification of the deduplication core of a systematic-review search pipeline
(`scripts/deduplicate.py`): identifier/title normalization, multi-key
exact-match clustering with first-writer-wins indexes, preprint-to-published
linking, and representative-record selection.

Strings are modelled at the character-list level (`List Char`), faithful to
Python string semantics on ASCII text: Python's `str.lower` is modelled by
`Char.toLower` (ASCII case mapping), `\s` / `str.strip()` by the ASCII
whitespace class, and `\w` by ASCII alphanumerics plus underscore.
`unicodedata.normalize("NFC", s)` is modelled as the identity function: the
model is restricted to NFC-normal input, which includes all ASCII strings.
-/

set_option maxHeartbeats 1000000

set_option maxRecDepth 8000

namespace Dedup

/-! ## Character classes (Python regex classes, ASCII fragment) -/

/-- Python `\s` (and `str.strip`): ASCII whitespace `space \t \n \r \x0b \x0c`. -/
def wsChar (c : Char) : Bool :=
  c = ' ' || c = '\t' || c = '\n' || c = '\r' || c = '\x0b' || c = '\x0c'

/-- Python `\w`: letters, digits and underscore (ASCII fragment). -/
def wordChar (c : Char) : Bool :=
  c.isAlphanum || c = '_'

/-- Characters kept by `re.sub(r"[^\w\s]", "", ·)`: word characters and whitespace. -/
def keepChar (c : Char) : Bool :=
  wordChar c || wsChar c

/-! ## Whitespace collapsing: `re.sub(r"\s+", " ", ·)`

Modelled as a left-to-right scan with a flag recording whether we are inside
a whitespace run (each maximal run is replaced by a single space). -/

/-- Scanner for `re.sub(r"\s+", " ", ·)`; `inWs` records whether the previous
character belonged to a whitespace run that has already emitted its space. -/
def squeezeAux : Bool → List Char → List Char
  | _, [] => []
  | inWs, c :: t =>
    if wsChar c then
      if inWs then squeezeAux true t else ' ' :: squeezeAux true t
    else
      c :: squeezeAux false t

/-- Python `re.sub(r"\s+", " ", l)`: collapse every whitespace run to one space. -/
def squeeze (l : List Char) : List Char :=
  squeezeAux false l

/-! ## `str.strip()` -/

/-- Python `str.strip()`: remove leading and trailing whitespace. -/
def pyStrip (l : List Char) : List Char :=
  ((l.dropWhile wsChar).reverse.dropWhile wsChar).reverse

/-! ## HTML tag removal: `re.sub(r"<[^>]+>", "", ·)`

The regex `<[^>]+>` matches a `<`, one or more non-`>` characters, and the
first following `>`.  `re.sub` removes the leftmost such matches, resuming the
scan after each removed match.  The scan is implemented with explicit fuel
(one unit per consumed character) to keep the function structurally
recursive. -/

/-- Remainder of the input after the first `>` (the regex's closing bracket),
or `none` if no `>` occurs. -/
def afterGt : List Char → Option (List Char)
  | [] => none
  | c :: t => if c = '>' then some t else afterGt t

/-- Given the characters following a `<`, return the remainder after the
matched tag `<[^>]+>`, or `none` when the regex does not match here
(no `>` ahead, or a `>` immediately after the `<`). -/
def tagEnd : List Char → Option (List Char)
  | [] => none
  | c :: t => if c = '>' then none else afterGt t

/-- Fueled scanner for `re.sub(r"<[^>]+>", "", ·)`. -/
def stripTagsAux : Nat → List Char → List Char
  | 0, l => l
  | _ + 1, [] => []
  | fuel + 1, c :: t =>
    if c = '<' then
      match tagEnd t with
      | some rest => stripTagsAux fuel rest
      | none => c :: stripTagsAux fuel t
    else
      c :: stripTagsAux fuel t

/-- Python `re.sub(r"<[^>]+>", "", l)`: delete every HTML-like markup span. -/
def stripTags (l : List Char) : List Char :=
  stripTagsAux l.length l

/-! ## `normalize_title` -/

/-- Python `unicodedata.normalize("NFC", ·)`, modelled as the identity: the model is
restricted to NFC-normal input (all ASCII strings are NFC-normal). -/
def nfcNormalize (s : String) : String := s

/-- Model of `normalize_title`: NFC, lowercase, strip HTML tags, remove punctuation,
collapse whitespace, trim. -/
def normalize_title (title : String) : String :=
  if title = "" then "" else
    String.mk
      (pyStrip (squeeze (List.filter keepChar
        (stripTags ((nfcNormalize title).data.map Char.toLower)))))

/-! ## `normalize_doi` -/

/-- Does the pattern occur at the head of the list (Python `startswith`)? -/
def leadsWith : List Char → List Char → Bool
  | [], _ => true
  | _ :: _, [] => false
  | p :: ps, c :: cs => p = c && leadsWith ps cs

/-- The DOI URL forms stripped by `normalize_doi`, in the source's order. -/
def doiUrlHeads : List String :=
  ["https://doi.org/", "http://doi.org/", "https://dx.doi.org/", "http://dx.doi.org/"]

/-- Model of `normalize_doi`: trim, strip the first matching DOI URL head
(checked case-insensitively), lowercase, trim. -/
def normalize_doi (doi : String) : String :=
  if doi = "" then "" else
    let d1 := pyStrip doi.data
    let d2 :=
      match doiUrlHeads.find? (fun p => leadsWith p.data (d1.map Char.toLower)) with
      | some p => d1.drop p.data.length
      | none => d1
    String.mk (pyStrip (d2.map Char.toLower))

/-! ## `normalize_arxiv_id` -/

/-- Python `re.sub(r"v\d+$", "", ·)`: remove a trailing version suffix `v<digits>`. -/
def dropVersionSuffix (l : List Char) : List Char :=
  let r := l.reverse
  let ds := r.takeWhile Char.isDigit
  let rest := r.dropWhile Char.isDigit
  match ds, rest with
  | _ :: _, 'v' :: rest' => rest'.reverse
  | _, _ => l

/-- Model of `normalize_arxiv_id`: trim, remove a trailing `v<digits>`, lowercase. -/
def normalize_arxiv_id (arxiv_id : String) : String :=
  if arxiv_id = "" then "" else
    String.mk ((dropVersionSuffix (pyStrip arxiv_id.data)).map Char.toLower)

/-! ## `is_preprint_doi` -/

/-- The preprint DOI heads (bioRxiv/medRxiv and arXiv), as in the source. -/
def preprintDoiHeads : List String :=
  ["10.1101/", "10.48550/arxiv"]

/-- Model of `is_preprint_doi`: the normalized DOI starts with a preprint DOI head. -/
def is_preprint_doi (doi : String) : Bool :=
  preprintDoiHeads.any (fun p => leadsWith p.data (normalize_doi doi).data)

/-! ## Word decomposition (used to state title claims) -/

/-- The whitespace-separated words of a character list (maximal non-whitespace
runs); used to express "the titles differ by at least one word". -/
def wsWordsAux : Bool → List Char → List (List Char) → List (List Char)
  | _, [], acc => (acc.map List.reverse).reverse
  | inWord, c :: t, acc =>
    if wsChar c then wsWordsAux false t acc
    else
      match inWord, acc with
      | true, w :: acc' => wsWordsAux true t ((c :: w) :: acc')
      | _, _ => wsWordsAux true t ([c] :: acc)

/-- The whitespace-separated words of a string. -/
def wsWords (s : String) : List (List Char) :=
  wsWordsAux false s.data []

/-! ## Unified records

The unified record schema produced by `load_records`; every field is carried
verbatim.  The engine itself never recomputes normalized fields, so records
are quantified over freely in the theorems below. -/

/-- A unified record (the dict produced by `load_records`). -/
structure Rec where
  source_db : String
  title_original : String
  title_normalized : String
  doi_original : String
  doi_normalized : String
  pmid : String
  arxiv_id_original : String
  arxiv_id_normalized : String
  s2_id : String
  abstract : String
  authors : List String
  year : String
  venue : String
  date : String
  url : String
deriving DecidableEq, Repr

/-- The record with every field empty (used only as a `headD` default where
the Python code indexes a list the engine's invariants keep non-empty). -/
def defaultRec : Rec :=
  { source_db := "", title_original := "", title_normalized := "", doi_original := ""
    doi_normalized := "", pmid := "", arxiv_id_original := "", arxiv_id_normalized := ""
    s2_id := "", abstract := "", authors := [], year := "", venue := "", date := "", url := "" }

/-- A log action: every processed record is logged as `NEW` or `MERGE`. -/
inductive DedupAction where
  | NEW
  | MERGE
deriving DecidableEq, Repr

/-- One entry of the engine's decision log. -/
structure LogEntry where
  action : DedupAction
  reason : String
  cluster_id : Nat
  source_db : String
  title : String
  doi : String
  matched_with_db : String
  matched_with_title : String
deriving DecidableEq, Repr

/-! ## The deduplication engine state

Python dicts are insertion-ordered; the cluster table and the four indexes are
modelled as association lists in insertion order, looked up with
`List.lookup` (first binding wins; the engine only ever inserts fresh keys,
via `setdefault`). -/

/-- The mutable state of `DeduplicationEngine`. -/
structure Engine where
  clusters : List (Nat × List Rec)
  next_cluster_id : Nat
  doi_index : List (String × Nat)
  pmid_index : List (String × Nat)
  arxiv_index : List (String × Nat)
  title_index : List (String × Nat)
  log : List LogEntry
deriving DecidableEq, Repr

/-- The freshly constructed engine (`DeduplicationEngine.__init__`). -/
def Engine.empty : Engine :=
  { clusters := [], next_cluster_id := 0, doi_index := [], pmid_index := []
    arxiv_index := [], title_index := [], log := [] }

/-- Python `dict.setdefault`: insert the binding only when the key is absent. -/
def setdefault (idx : List (String × Nat)) (k : String) (v : Nat) : List (String × Nat) :=
  match idx.lookup k with
  | some _ => idx
  | none => idx ++ [(k, v)]

/-- One guarded index probe of `_find_cluster`: Python's
`if record[key]: cid = index.get(record[key])`. -/
def tryKey (k : String) (idx : List (String × Nat)) : Option Nat :=
  if k = "" then none else idx.lookup k

/-- Model of `DeduplicationEngine._find_cluster`: probe the four indexes in priority
order DOI, PMID, arXiv ID, normalized title; on the first hit return the
cluster ID and the log reason. -/
def findCluster (e : Engine) (r : Rec) : Option (Nat × String) :=
  match tryKey r.doi_normalized e.doi_index with
  | some cid => some (cid, "DOI match: " ++ r.doi_normalized)
  | none =>
    match tryKey r.pmid e.pmid_index with
    | some cid => some (cid, "PMID match: " ++ r.pmid)
    | none =>
      match tryKey r.arxiv_id_normalized e.arxiv_index with
      | some cid => some (cid, "arXiv ID match: " ++ r.arxiv_id_normalized)
      | none =>
        match tryKey r.title_normalized e.title_index with
        | some cid => some (cid, "Exact title match")
        | none => none

/-- Model of `DeduplicationEngine._register_indexes`: register every non-empty
identifier of the record, first-writer-wins. -/
def registerIndexes (e : Engine) (r : Rec) (cid : Nat) : Engine :=
  { e with
    doi_index := if r.doi_normalized = "" then e.doi_index
      else setdefault e.doi_index r.doi_normalized cid
    pmid_index := if r.pmid = "" then e.pmid_index
      else setdefault e.pmid_index r.pmid cid
    arxiv_index := if r.arxiv_id_normalized = "" then e.arxiv_index
      else setdefault e.arxiv_index r.arxiv_id_normalized cid
    title_index := if r.title_normalized = "" then e.title_index
      else setdefault e.title_index r.title_normalized cid }

/-- Append a record to the member list of an existing cluster
(`self.clusters[cluster_id].append(record)`). -/
def updateCluster (cs : List (Nat × List Rec)) (cid : Nat) (r : Rec) : List (Nat × List Rec) :=
  cs.map (fun p => if p.1 = cid then (p.1, p.2 ++ [r]) else p)

/-- The log entry `add_record` appends for this record: a `MERGE` entry naming
the matching key and the cluster's founding record, or a `NEW` entry. -/
def entryOf (e : Engine) (r : Rec) : LogEntry :=
  match findCluster e r with
  | some (cid, reason) =>
    let founding := ((updateCluster e.clusters cid r).lookup cid).getD [] |>.headD defaultRec
    { action := DedupAction.MERGE, reason := reason, cluster_id := cid
      source_db := r.source_db, title := r.title_original.take 100, doi := r.doi_original
      matched_with_db := founding.source_db
      matched_with_title := founding.title_original.take 100 }
  | none =>
    { action := DedupAction.NEW, reason := "No match found", cluster_id := e.next_cluster_id
      source_db := r.source_db, title := r.title_original.take 100, doi := r.doi_original
      matched_with_db := "", matched_with_title := "" }

/-- Model of `DeduplicationEngine.add_record`: merge into the first matching cluster or
found a new singleton cluster, register the record's identifiers, and log the
decision. -/
def addRecord (e : Engine) (r : Rec) : Engine :=
  match findCluster e r with
  | some (cid, _) =>
    registerIndexes
      { e with clusters := updateCluster e.clusters cid r, log := e.log ++ [entryOf e r] }
      r cid
  | none =>
    registerIndexes
      { e with clusters := e.clusters ++ [(e.next_cluster_id, [r])]
               next_cluster_id := e.next_cluster_id + 1
               log := e.log ++ [entryOf e r] }
      r e.next_cluster_id

/-- Feed a batch of records to the engine in order. -/
def run (e : Engine) (rs : List Rec) : Engine :=
  rs.foldl addRecord e

/-- Process an ordered input from a fresh engine (the `main` driver loop). -/
def runEngine (rs : List Rec) : Engine :=
  run Engine.empty rs

/-- The cluster ID the `i`-th input record was assigned to (read off the log,
which is one-to-one with the input in processing order). -/
def cidAt (rs : List Rec) (i : Nat) : Option Nat :=
  ((runEngine rs).log)[i]?.map (fun en => en.cluster_id)

/-! ## Preprint resolver -/

/-- A preprint-to-published link record emitted by `resolve_preprints`. -/
structure PreLink where
  cluster_id : Nat
  published_doi : String
  preprint_dois : List String
  title : String
deriving DecidableEq, Repr

/-- Model of `DeduplicationEngine.resolve_preprints`: for every cluster with at least
two members whose DOIs include both a preprint and a published DOI, emit a
link record. -/
def resolvePreprints (e : Engine) : List PreLink :=
  e.clusters.filterMap (fun p =>
    let records := p.2
    if records.length < 2 then none
    else
      let dois := (records.filter (fun r => r.doi_normalized ≠ "")).map
        (fun r => (r.doi_normalized, r.source_db))
      let preprint_dois := (dois.filter (fun q => is_preprint_doi q.1)).map (fun q => q.1)
      let published_dois :=
        (dois.filter (fun q => q.1 ≠ "" && !(is_preprint_doi q.1))).map (fun q => q.1)
      if preprint_dois ≠ [] ∧ published_dois ≠ [] then
        some { cluster_id := p.1, published_doi := published_dois.headD ""
               preprint_dois := preprint_dois
               title := (records.headD defaultRec).title_original.take 100 }
      else none)

/-! ## Representative selection -/

/-- The deduplicated output record (one per cluster). -/
structure DedupRecord where
  cluster_id : Nat
  title : String
  title_normalized : String
  doi : String
  preprint_doi : String
  pmid : String
  arxiv_id : String
  abstract : String
  authors : List String
  year : String
  venue : String
  date : String
  url : String
  sources : List String
  n_sources : Nat
  all_dois : List String
  duplicate_count : Nat
deriving DecidableEq, Repr

/-- The fixed source-quality ranking `DB_PRIORITY` (unknown sources rank 99). -/
def dbPriority (s : String) : Nat :=
  if s = "pubmed" then 1
  else if s = "scopus" then 2
  else if s = "semantic_scholar" then 3
  else if s = "biorxiv_medrxiv" then 4
  else if s = "springernature" then 5
  else if s = "arxiv" then 6
  else if s = "google_scholar" then 7
  else 99

/-- The sort key of `get_deduplicated_records`: published DOI first, then any
DOI, then source priority, then longer abstract (negated length). -/
def sortKey (r : Rec) : Nat × Nat × Nat × Int :=
  ( if r.doi_normalized ≠ "" && !(is_preprint_doi r.doi_normalized) then 1 else 2
  , if r.doi_normalized ≠ "" then 1 else 2
  , dbPriority r.source_db
  , -(r.abstract.length : Int) )

/-- Strict lexicographic comparison of sort keys (Python tuple `<`). -/
def keyLt (a b : Rec) : Bool :=
  let x := sortKey a
  let y := sortKey b
  decide (x.1 < y.1) || (decide (x.1 = y.1) &&
    (decide (x.2.1 < y.2.1) || (decide (x.2.1 = y.2.1) &&
      (decide (x.2.2.1 < y.2.2.1) || (decide (x.2.2.1 = y.2.2.1) &&
        decide (x.2.2.2 < y.2.2.2))))))

/-- Insert into a sorted list, before the first element that is not strictly
smaller (so earlier input stays before equal-key later input). -/
def insertSorted (lt : α → α → Bool) (a : α) : List α → List α
  | [] => [a]
  | b :: t => if lt b a then b :: insertSorted lt a t else a :: b :: t

/-- Stable sort by a strict comparison; extensionally equal to Python's
`sorted` (both are stable sorts driven by `<` on the key). -/
def isort (lt : α → α → Bool) : List α → List α
  | [] => []
  | a :: t => insertSorted lt a (isort lt t)

/-- Python `max(l, key=len)`: the first element of maximal length. -/
def pyMax : List String → String
  | [] => ""
  | h :: t => t.foldl (fun acc s => if s.length > acc.length then s else acc) h

/-- One output record of `get_deduplicated_records` for one cluster.
`setL` models Python's `list(set(...))`: an enumeration of the distinct
elements in an unspecified (hash-dependent) order; theorems quantify over
every `setL` that enumerates the distinct elements. -/
def dedupOf (setL : List String → List String) (p : Nat × List Rec) : DedupRecord :=
  let cid := p.1
  let records := p.2
  let best := (isort keyLt records).headD defaultRec
  let allAbstracts := (records.filter (fun r => r.abstract ≠ "")).map (fun r => r.abstract)
  let best_abstract :=
    if 1 < records.length ∧ allAbstracts ≠ [] then pyMax allAbstracts else best.abstract
  let sources := setL (records.map (fun r => r.source_db))
  let all_dois := setL ((records.filter (fun r => r.doi_original ≠ "")).map
    (fun r => r.doi_original))
  let all_pmids := setL ((records.filter (fun r => r.pmid ≠ "")).map (fun r => r.pmid))
  let all_arxiv_ids := setL ((records.filter (fun r => r.arxiv_id_original ≠ "")).map
    (fun r => r.arxiv_id_original))
  let preprint_dois := all_dois.filter (fun d => is_preprint_doi d)
  let published_dois := all_dois.filter (fun d => d ≠ "" && !(is_preprint_doi d))
  { cluster_id := cid
    title := best.title_original
    title_normalized := best.title_normalized
    doi := published_dois.headD (all_dois.headD "")
    preprint_doi := if preprint_dois ≠ [] ∧ published_dois ≠ [] then preprint_dois.headD ""
      else ""
    pmid := all_pmids.headD ""
    arxiv_id := all_arxiv_ids.headD ""
    abstract := best_abstract
    authors := best.authors
    year := best.year
    venue := best.venue
    date := best.date
    url := best.url
    sources := isort (fun a b : String => decide (a < b)) sources
    n_sources := sources.length
    all_dois := all_dois
    duplicate_count := records.length }

/-- Model of `DeduplicationEngine.get_deduplicated_records`: one representative record
per cluster, sorted by cluster ID. -/
def getDeduplicated (e : Engine) (setL : List String → List String) : List DedupRecord :=
  isort (fun a b : DedupRecord => decide (a.cluster_id < b.cluster_id))
    (e.clusters.map (dedupOf setL))

/-- A valid model of Python `list(set(l))`: some enumeration of the distinct
elements of `l` (`l.dedup` is the first-occurrence enumeration). -/
def IsSetEnum (f : List String → List String) : Prop :=
  ∀ l, (f l).Perm l.dedup

/-! ## Key fields -/

/-- The four identifier kinds used by the index structure. -/
inductive KeyField where
  | doi
  | pmid
  | arxiv
  | title
deriving DecidableEq, Repr

/-- The record field indexed under each key kind. -/
def keyOf : KeyField → Rec → String
  | KeyField.doi, r => r.doi_normalized
  | KeyField.pmid, r => r.pmid
  | KeyField.arxiv, r => r.arxiv_id_normalized
  | KeyField.title, r => r.title_normalized

/-- The engine index for each key kind. -/
def idxOf : KeyField → Engine → List (String × Nat)
  | KeyField.doi, e => e.doi_index
  | KeyField.pmid, e => e.pmid_index
  | KeyField.arxiv, e => e.arxiv_index
  | KeyField.title, e => e.title_index

/-- A record whose four index keys are all empty after normalization. -/
def allEmptyKeys (r : Rec) : Prop :=
  r.doi_normalized = "" ∧ r.pmid = "" ∧ r.arxiv_id_normalized = "" ∧ r.title_normalized = ""

instance (r : Rec) : Decidable (allEmptyKeys r) := by
  unfold allEmptyKeys
  infer_instance

/-- A record whose only non-empty index key is `keyOf f = k`
(the other three identifier fields are empty). -/
def onlyKey (f : KeyField) (k : String) (r : Rec) : Prop :=
  k ≠ "" ∧ keyOf f r = k ∧
    match f with
    | KeyField.doi => r.pmid = "" ∧ r.arxiv_id_normalized = "" ∧ r.title_normalized = ""
    | KeyField.pmid => r.doi_normalized = "" ∧ r.arxiv_id_normalized = "" ∧ r.title_normalized = ""
    | KeyField.arxiv => r.doi_normalized = "" ∧ r.pmid = "" ∧ r.title_normalized = ""
    | KeyField.title => r.doi_normalized = "" ∧ r.pmid = "" ∧ r.arxiv_id_normalized = ""

instance (f : KeyField) (k : String) (r : Rec) : Decidable (onlyKey f k r) := by
  unfold onlyKey
  cases f <;> exact instDecidableAnd

/-- No index of the engine contains the empty string as a key. -/
def emptyKeyFree (e : Engine) : Prop :=
  ∀ f : KeyField, ∀ p ∈ idxOf f e, p.1 ≠ ""

/-- Modelled from the spec's words: probe the four (key, index) pairs in the
fixed priority order DOI, PMID, arXiv ID, normalized title, and return the
first hit whose key is non-empty and present in its index. -/
def findClusterSpec (e : Engine) (r : Rec) : Option Nat :=
  ([ (r.doi_normalized, e.doi_index), (r.pmid, e.pmid_index)
   , (r.arxiv_id_normalized, e.arxiv_index), (r.title_normalized, e.title_index)
   ].filterMap (fun q => tryKey q.1 q.2)).head?

/-! ## Spec-side DOI lists of a cluster (member order) -/

/-- The non-empty normalized member DOIs tagged preprint, in member order. -/
def preprintDoisOf (recs : List Rec) : List String :=
  (recs.map (fun r => r.doi_normalized)).filter
    (fun d => decide (d ≠ "") && is_preprint_doi d)

/-- The non-empty normalized member DOIs tagged published, in member order. -/
def publishedDoisOf (recs : List Rec) : List String :=
  (recs.map (fun r => r.doi_normalized)).filter
    (fun d => decide (d ≠ "") && !(is_preprint_doi d))

/-! ## Shape of whitespace-collapsed output -/

/-- No two adjacent whitespace characters. -/
def noWsRun : List Char → Prop
  | [] => True
  | [_] => True
  | a :: b :: t => ¬(wsChar a = true ∧ wsChar b = true) ∧ noWsRun (b :: t)

/-- Every whitespace character is a plain space. -/
def spaceOnly (l : List Char) : Prop :=
  ∀ c ∈ l, wsChar c = true → c = ' '

/-! ## Sample records used by the concrete witnesses -/

/-- Sample record: carries only a normalized DOI. -/
def recDoiOnly : Rec := { defaultRec with doi_normalized := "10.1000/x" }

/-- Sample record: carries only a PMID. -/
def recPmidOnly : Rec := { defaultRec with pmid := "123" }

/-- Sample record: carries a normalized DOI and a PMID. -/
def recDoiPmid : Rec := { defaultRec with doi_normalized := "10.1000/x", pmid := "123" }

/-- Sample preprint record (bioRxiv DOI, shares PMID `p9` with `recPub`). -/
def recPre : Rec := { defaultRec with
  source_db := "biorxiv_medrxiv"
  title_original := "Foo Bar Study"
  doi_original := "10.1101/2023.01.01.500001"
  doi_normalized := "10.1101/2023.01.01.500001"
  pmid := "p9"
  abstract := "short" }

/-- Sample published record (journal DOI, shares PMID `p9` with `recPre`). -/
def recPub : Rec := { defaultRec with
  source_db := "pubmed"
  title_original := "Foo Bar Study!"
  doi_original := "10.1038/s41586-023-00001-x"
  doi_normalized := "10.1038/s41586-023-00001-x"
  pmid := "p9"
  abstract := "a considerably longer abstract" }

/-- Sample published record A (shares PMID `77` with `recPubB`). -/
def recPubA : Rec := { defaultRec with
  source_db := "pubmed"
  pmid := "77"
  doi_original := "10.1000/a"
  doi_normalized := "10.1000/a" }

/-- Sample published record B (shares PMID `77` with `recPubA`). -/
def recPubB : Rec := { defaultRec with
  source_db := "scopus"
  pmid := "77"
  doi_original := "10.2000/b"
  doi_normalized := "10.2000/b" }

/-! ## Association-list and index lemmas -/

theorem lookup_cons (k k' : String) (v : Nat) (t : List (String × Nat)) :
    List.lookup k ((k', v) :: t) = if k = k' then some v else List.lookup k t := by
  cases h : (k == k' : Bool)
  · rw [if_neg (by simpa using h)]
    simp [List.lookup, h]
  · rw [if_pos (by simpa using h)]
    simp [List.lookup, h]

theorem lookup_append_some {k : String} {v : Nat} {l1 : List (String × Nat)}
    (l2 : List (String × Nat)) (h : List.lookup k l1 = some v) :
    List.lookup k (l1 ++ l2) = some v := by
  induction l1 with
  | nil => simp [List.lookup] at h
  | cons p t ih =>
    rcases p with ⟨k', v'⟩
    rw [lookup_cons] at h
    rw [List.cons_append, lookup_cons]
    by_cases hk : k = k'
    · rw [if_pos hk] at h ⊢
      exact h
    · rw [if_neg hk] at h ⊢
      exact ih h

theorem lookup_append_none {k : String} {l1 : List (String × Nat)}
    (l2 : List (String × Nat)) (h : List.lookup k l1 = none) :
    List.lookup k (l1 ++ l2) = List.lookup k l2 := by
  induction l1 with
  | nil => simp
  | cons p t ih =>
    rcases p with ⟨k', v'⟩
    rw [lookup_cons] at h
    rw [List.cons_append, lookup_cons]
    by_cases hk : k = k'
    · rw [if_pos hk] at h
      exact absurd h (by simp)
    · rw [if_neg hk] at h ⊢
      exact ih h

theorem setdefault_preserves {k : String} {v : Nat} (idx : List (String × Nat))
    (k' : String) (v' : Nat) (h : List.lookup k idx = some v) :
    List.lookup k (setdefault idx k' v') = some v := by
  unfold setdefault
  cases hl : List.lookup k' idx
  · exact lookup_append_some _ h
  · exact h

theorem setdefault_fresh {k : String} (idx : List (String × Nat)) (v : Nat)
    (h : List.lookup k idx = none) :
    List.lookup k (setdefault idx k v) = some v := by
  unfold setdefault
  rw [h]
  rw [lookup_append_none _ h, lookup_cons, if_pos rfl]

theorem mem_setdefault {p : String × Nat} {idx : List (String × Nat)}
    {k : String} {v : Nat} (h : p ∈ setdefault idx k v) : p ∈ idx ∨ p = (k, v) := by
  unfold setdefault at h
  cases hl : List.lookup k idx
  · rw [hl] at h
    rcases List.mem_append.mp h with h1 | h2
    · exact Or.inl h1
    · exact Or.inr (by simpa using h2)
  · rw [hl] at h
    exact Or.inl h

/-! ## Engine step lemmas -/

theorem registerIndexes_clusters (e : Engine) (r : Rec) (cid : Nat) :
    (registerIndexes e r cid).clusters = e.clusters := rfl

theorem registerIndexes_log (e : Engine) (r : Rec) (cid : Nat) :
    (registerIndexes e r cid).log = e.log := rfl

theorem registerIndexes_next (e : Engine) (r : Rec) (cid : Nat) :
    (registerIndexes e r cid).next_cluster_id = e.next_cluster_id := rfl

theorem idxOf_registerIndexes (f : KeyField) (e : Engine) (r : Rec) (cid : Nat) :
    idxOf f (registerIndexes e r cid) =
      if keyOf f r = "" then idxOf f e else setdefault (idxOf f e) (keyOf f r) cid := by
  cases f <;> rfl

theorem log_addRecord (e : Engine) (r : Rec) :
    (addRecord e r).log = e.log ++ [entryOf e r] := by
  unfold addRecord
  cases h : findCluster e r with
  | none => rfl
  | some p => rcases p with ⟨cid, reason⟩; rfl

theorem next_addRecord (e : Engine) (r : Rec) :
    e.next_cluster_id ≤ (addRecord e r).next_cluster_id := by
  unfold addRecord
  cases h : findCluster e r with
  | none => simp [registerIndexes_next]
  | some p =>
    rcases p with ⟨cid, reason⟩
    simp [registerIndexes_next]

theorem entryOf_cid (e : Engine) (r : Rec) :
    (entryOf e r).cluster_id =
      match findCluster e r with
      | some (cid, _) => cid
      | none => e.next_cluster_id := by
  unfold entryOf
  cases h : findCluster e r with
  | none => rfl
  | some p => rcases p with ⟨cid, reason⟩; rfl

theorem findCluster_allEmpty (e : Engine) (r : Rec) (h : allEmptyKeys r) :
    findCluster e r = none := by
  obtain ⟨h1, h2, h3, h4⟩ := h
  simp [findCluster, tryKey, h1, h2, h3, h4]

theorem findCluster_onlyKey {f : KeyField} {k : String} {r : Rec} (e : Engine)
    (h : onlyKey f k r) :
    (findCluster e r).map Prod.fst = List.lookup k (idxOf f e) := by
  obtain ⟨hk, hkey, hrest⟩ := h
  cases f with
  | doi =>
    obtain ⟨h2, h3, h4⟩ := hrest
    simp only [keyOf] at hkey
    subst hkey
    simp only [findCluster, tryKey, h2, h3, h4, if_pos rfl, if_neg hk, idxOf]
    cases hl : List.lookup r.doi_normalized e.doi_index <;> simp [hl]
  | pmid =>
    obtain ⟨h1, h3, h4⟩ := hrest
    simp only [keyOf] at hkey
    subst hkey
    simp only [findCluster, tryKey, h1, h3, h4, if_pos rfl, if_neg hk, idxOf]
    cases hl : List.lookup r.pmid e.pmid_index <;> simp [hl]
  | arxiv =>
    obtain ⟨h1, h2, h4⟩ := hrest
    simp only [keyOf] at hkey
    subst hkey
    simp only [findCluster, tryKey, h1, h2, h4, if_pos rfl, if_neg hk, idxOf]
    cases hl : List.lookup r.arxiv_id_normalized e.arxiv_index <;> simp [hl]
  | title =>
    obtain ⟨h1, h2, h3⟩ := hrest
    simp only [keyOf] at hkey
    subst hkey
    simp only [findCluster, tryKey, h1, h2, h3, if_pos rfl, if_neg hk, idxOf]
    cases hl : List.lookup r.title_normalized e.title_index <;> simp [hl]

theorem idxOf_addRecord (f : KeyField) (e : Engine) (r : Rec) :
    idxOf f (addRecord e r) =
      if keyOf f r = "" then idxOf f e
      else setdefault (idxOf f e) (keyOf f r) ((entryOf e r).cluster_id) := by
  rw [entryOf_cid]
  unfold addRecord
  cases hf : findCluster e r with
  | none =>
    rw [idxOf_registerIndexes]
    cases f <;> rfl
  | some p =>
    rcases p with ⟨cid, reason⟩
    rw [idxOf_registerIndexes]
    cases f <;> rfl

theorem lookup_persist_addRecord {f : KeyField} {k : String} {c : Nat} {e : Engine}
    (r : Rec) (h : List.lookup k (idxOf f e) = some c) :
    List.lookup k (idxOf f (addRecord e r)) = some c := by
  rw [idxOf_addRecord]
  split
  · exact h
  · exact setdefault_preserves _ _ _ h

theorem lookup_persist_run {f : KeyField} {k : String} {c : Nat} :
    ∀ (rs : List Rec) (e : Engine), List.lookup k (idxOf f e) = some c →
      List.lookup k (idxOf f (run e rs)) = some c := by
  intro rs
  induction rs with
  | nil => intro e h; exact h
  | cons r t ih => intro e h; exact ih (addRecord e r) (lookup_persist_addRecord r h)

theorem addRecord_onlyKey_lookup {f : KeyField} {k : String} (e : Engine) (r : Rec)
    (h : onlyKey f k r) :
    List.lookup k (idxOf f (addRecord e r)) = some ((entryOf e r).cluster_id) := by
  have hmap := findCluster_onlyKey e h
  rw [idxOf_addRecord, h.2.1, if_neg h.1, entryOf_cid]
  cases hl : List.lookup k (idxOf f e) with
  | none =>
    rw [hl] at hmap
    have hfc : findCluster e r = none := by
      cases hfc : findCluster e r with
      | none => rfl
      | some p => rw [hfc] at hmap; simp at hmap
    rw [hfc]
    exact setdefault_fresh _ _ hl
  | some c =>
    rw [hl] at hmap
    obtain ⟨p, hp, hp1⟩ : ∃ p, findCluster e r = some p ∧ p.1 = c := by
      cases hfc : findCluster e r with
      | none => rw [hfc] at hmap; simp at hmap
      | some p => rw [hfc] at hmap; exact ⟨p, rfl, by simpa using hmap⟩
    rcases p with ⟨c', s⟩
    simp only at hp1
    subst hp1
    rw [hp]
    exact setdefault_preserves _ _ _ hl

theorem entryOf_onlyKey_hit {f : KeyField} {k : String} {c : Nat} (e : Engine) (r : Rec)
    (h : onlyKey f k r) (hl : List.lookup k (idxOf f e) = some c) :
    (entryOf e r).cluster_id = c := by
  have hmap := findCluster_onlyKey e h
  rw [hl] at hmap
  rw [entryOf_cid]
  cases hfc : findCluster e r with
  | none => rw [hfc] at hmap; simp at hmap
  | some p =>
    rw [hfc] at hmap
    rcases p with ⟨c', s⟩
    simpa using hmap

/-! ## Run lemmas -/

theorem run_cons (e : Engine) (r : Rec) (rs : List Rec) :
    run e (r :: rs) = run (addRecord e r) rs := rfl

theorem run_append (e : Engine) (l1 l2 : List Rec) :
    run e (l1 ++ l2) = run (run e l1) l2 := by
  simp [run, List.foldl_append]

theorem run_log_length : ∀ (rs : List Rec) (e : Engine),
    (run e rs).log.length = e.log.length + rs.length := by
  intro rs
  induction rs with
  | nil => intro e; rfl
  | cons r t ih =>
    intro e
    rw [run_cons, ih, log_addRecord]
    simp
    omega

theorem run_log_grows : ∀ (rs : List Rec) (e : Engine),
    ∃ t, (run e rs).log = e.log ++ t := by
  intro rs
  induction rs with
  | nil => intro e; exact ⟨[], by simp [run]⟩
  | cons r t ih =>
    intro e
    obtain ⟨t', ht⟩ := ih (addRecord e r)
    rw [run_cons, ht, log_addRecord, List.append_assoc]
    exact ⟨[entryOf e r] ++ t', rfl⟩

theorem next_run_mono : ∀ (rs : List Rec) (e : Engine),
    e.next_cluster_id ≤ (run e rs).next_cluster_id := by
  intro rs
  induction rs with
  | nil => intro e; exact Nat.le_refl _
  | cons r t ih =>
    intro e
    exact Nat.le_trans (next_addRecord e r) (ih (addRecord e r))

theorem logAt (A : List Rec) (r : Rec) (B : List Rec) :
    ((runEngine (A ++ r :: B)).log)[A.length]? =
      some (entryOf (run Engine.empty A) r) := by
  have h1 : runEngine (A ++ r :: B) = run (addRecord (run Engine.empty A) r) B := by
    simp [runEngine, run, List.foldl_append]
  obtain ⟨t, ht⟩ := run_log_grows B (addRecord (run Engine.empty A) r)
  have hlen : (run Engine.empty A).log.length = A.length := by
    rw [run_log_length]
    simp [Engine.empty]
  rw [h1, ht, log_addRecord, List.append_assoc]
  rw [List.getElem?_append_right (by omega)]
  simp [hlen]

theorem cidAt_decomp (A : List Rec) (r : Rec) (B : List Rec) :
    cidAt (A ++ r :: B) A.length = some ((entryOf (run Engine.empty A) r).cluster_id) := by
  rw [cidAt, logAt]
  rfl

/-! ## Empty-key freedom -/

theorem emptyKeyFree_empty : emptyKeyFree Engine.empty := by
  intro f p hp
  cases f <;> simp [idxOf, Engine.empty] at hp

theorem emptyKeyFree_addRecord {e : Engine} (r : Rec) (h : emptyKeyFree e) :
    emptyKeyFree (addRecord e r) := by
  intro f p hp
  rw [idxOf_addRecord] at hp
  split at hp
  · exact h f p hp
  · rename_i hne
    rcases mem_setdefault hp with hm | he
    · exact h f p hm
    · rw [he]
      exact hne

theorem emptyKeyFree_run : ∀ (rs : List Rec) (e : Engine),
    emptyKeyFree e → emptyKeyFree (run e rs) := by
  intro rs
  induction rs with
  | nil => intro e h; exact h
  | cons r t ih => intro e h; exact ih (addRecord e r) (emptyKeyFree_addRecord r h)

theorem next_addRecord_allEmpty (e : Engine) {r : Rec} (h : allEmptyKeys r) :
    (addRecord e r).next_cluster_id = e.next_cluster_id + 1 := by
  unfold addRecord
  rw [findCluster_allEmpty e r h]
  rfl

theorem entryOf_allEmpty (e : Engine) {r : Rec} (h : allEmptyKeys r) :
    (entryOf e r).action = DedupAction.NEW ∧
      (entryOf e r).cluster_id = e.next_cluster_id := by
  unfold entryOf
  rw [findCluster_allEmpty e r h]
  exact ⟨rfl, rfl⟩

/-! ## The spec's description of cluster lookup (for the refinement claim C2) -/

theorem findCluster_eq_spec (e : Engine) (r : Rec) :
    (findCluster e r).map Prod.fst = findClusterSpec e r := by
  unfold findCluster findClusterSpec
  cases h1 : tryKey r.doi_normalized e.doi_index
  · cases h2 : tryKey r.pmid e.pmid_index
    · cases h3 : tryKey r.arxiv_id_normalized e.arxiv_index
      · cases h4 : tryKey r.title_normalized e.title_index
        · simp [h1, h2, h3, h4]
        · simp [h1, h2, h3, h4]
      · simp [h1, h2, h3]
    · simp [h1, h2]
  · simp [h1]

/-! ## Claim theorems: clustering engine -/

/-- C1: a record whose normalized DOI, PMID, normalized arXiv ID and
normalized title are all empty never matches any cluster and always founds a
fresh singleton cluster with a `NEW` log entry; it registers nothing, no
engine run ever holds an empty-string key in any of its four indexes, and two
all-empty-key records processed anywhere in one input always receive distinct
cluster IDs. -/
theorem dedup_C1 (e : Engine) (r : Rec) (rs A M B : List Rec) (r1 r2 : Rec)
    (hr : allEmptyKeys r) (h1 : allEmptyKeys r1) (h2 : allEmptyKeys r2) :
    findCluster e r = none ∧
    (addRecord e r).clusters = e.clusters ++ [(e.next_cluster_id, [r])] ∧
    (entryOf e r).action = DedupAction.NEW ∧
    (∀ f : KeyField, idxOf f (addRecord e r) = idxOf f e) ∧
    emptyKeyFree (runEngine rs) ∧
    (∃ c1 c2, cidAt (A ++ r1 :: (M ++ r2 :: B)) A.length = some c1 ∧
      cidAt (A ++ r1 :: (M ++ r2 :: B)) (A.length + M.length + 1) = some c2 ∧
      c1 ≠ c2) := by
  refine ⟨findCluster_allEmpty e r hr, ?_, (entryOf_allEmpty e hr).1, ?_, ?_, ?_⟩
  · unfold addRecord
    rw [findCluster_allEmpty e r hr]
    rfl
  · intro f
    rw [idxOf_addRecord]
    rw [if_pos ?side]
    case side =>
      obtain ⟨ha, hb, hc, hd⟩ := hr
      cases f
      · exact ha
      · exact hb
      · exact hc
      · exact hd
  · exact emptyKeyFree_run rs Engine.empty emptyKeyFree_empty
  · have hc1 := cidAt_decomp A r1 (M ++ r2 :: B)
    have e1cid := (entryOf_allEmpty (run Engine.empty A) h1).2
    have hsplit : A ++ r1 :: (M ++ r2 :: B) = (A ++ r1 :: M) ++ (r2 :: B) := by simp
    have hlen2 : (A ++ r1 :: M).length = A.length + M.length + 1 := by
      simp [Nat.add_assoc]
    have hc2 : cidAt (A ++ r1 :: (M ++ r2 :: B)) (A.length + M.length + 1) =
        some ((entryOf (run Engine.empty (A ++ r1 :: M)) r2).cluster_id) := by
      rw [hsplit, ← hlen2]
      exact cidAt_decomp (A ++ r1 :: M) r2 B
    have e2cid := (entryOf_allEmpty (run Engine.empty (A ++ r1 :: M)) h2).2
    have hrunM : run Engine.empty (A ++ r1 :: M) =
        run (addRecord (run Engine.empty A) r1) M := by
      rw [run_append, run_cons]
    have hmono : (run Engine.empty A).next_cluster_id + 1 ≤
        (run Engine.empty (A ++ r1 :: M)).next_cluster_id := by
      rw [hrunM, ← next_addRecord_allEmpty (run Engine.empty A) h1]
      exact next_run_mono M _
    refine ⟨(entryOf (run Engine.empty A) r1).cluster_id,
      (entryOf (run Engine.empty (A ++ r1 :: M)) r2).cluster_id, hc1, hc2, ?_⟩
    rw [e1cid, e2cid]
    omega

/-- C1 witness: concrete instantiation with two all-empty-key records. -/
theorem dedup_C1_witness :
    allEmptyKeys defaultRec ∧
    (findCluster Engine.empty defaultRec = none ∧
     (addRecord Engine.empty defaultRec).clusters =
       Engine.empty.clusters ++ [(Engine.empty.next_cluster_id, [defaultRec])] ∧
     (entryOf Engine.empty defaultRec).action = DedupAction.NEW ∧
     (∀ f : KeyField, idxOf f (addRecord Engine.empty defaultRec) = idxOf f Engine.empty) ∧
     emptyKeyFree (runEngine [defaultRec]) ∧
     (∃ c1 c2, cidAt ([] ++ defaultRec :: ([] ++ defaultRec :: [])) (List.length ([] : List Rec)) = some c1 ∧
       cidAt ([] ++ defaultRec :: ([] ++ defaultRec :: []))
         (List.length ([] : List Rec) + List.length ([] : List Rec) + 1) = some c2 ∧
       c1 ≠ c2)) :=
  ⟨by decide,
   dedup_C1 Engine.empty defaultRec [defaultRec] [] [] [] defaultRec defaultRec
     (by decide) (by decide) (by decide)⟩

/-- C2: `_find_cluster` implements the spec's priority chain (DOI, PMID,
arXiv ID, normalized title; first index holding a non-empty key of the
record), `add_record` appends the record to exactly that cluster or founds a
new singleton cluster when no index hits, and it is total: every call appends
exactly one log entry. -/
theorem dedup_C2 (e : Engine) (r : Rec) :
    (findCluster e r).map Prod.fst = findClusterSpec e r ∧
    (addRecord e r).clusters =
      (match findClusterSpec e r with
       | some cid => updateCluster e.clusters cid r
       | none => e.clusters ++ [(e.next_cluster_id, [r])]) ∧
    (addRecord e r).log.length = e.log.length + 1 := by
  refine ⟨findCluster_eq_spec e r, ?_, ?_⟩
  · rw [← findCluster_eq_spec e r]
    unfold addRecord
    cases hf : findCluster e r with
    | none => rfl
    | some p => rcases p with ⟨cid, reason⟩; rfl
  · rw [log_addRecord]
    simp

/-- C3: first-writer-wins index persistence — once a key maps to a cluster ID
in one of the four indexes, it still maps to that cluster ID after any
further sequence of `add_record` calls. -/
theorem dedup_C3 (f : KeyField) (k : String) (c : Nat) (e : Engine) (rs : List Rec)
    (h : List.lookup k (idxOf f e) = some c) :
    List.lookup k (idxOf f (run e rs)) = some c :=
  lookup_persist_run rs e h

/-- C3 witness: the DOI key of the first record still maps to cluster 0 after
a further record with the same DOI is processed. -/
theorem dedup_C3_witness :
    List.lookup "10.1000/x" (idxOf KeyField.doi (runEngine [recDoiOnly])) = some 0 ∧
    List.lookup "10.1000/x"
      (idxOf KeyField.doi (run (runEngine [recDoiOnly]) [recDoiPmid])) = some 0 :=
  ⟨by decide, dedup_C3 KeyField.doi "10.1000/x" 0 (runEngine [recDoiOnly]) [recDoiPmid]
    (by decide)⟩

/-- C4 counterexample: `recPmidOnly` and `recDoiPmid` share the non-empty
PMID `123`, yet with input order `[recDoiOnly, recPmidOnly, recDoiPmid]` they
land in clusters 1 and 0 respectively (the third record is routed by its
higher-priority DOI key), while the order `[recPmidOnly, recDoiPmid, recDoiOnly]`
puts them both in cluster 0 — so sharing an identifier does not guarantee
co-clustering, and reordering changes whether they are co-clustered. -/
theorem dedup_C4_counterexample :
    recPmidOnly.pmid = recDoiPmid.pmid ∧ recPmidOnly.pmid ≠ "" ∧
    cidAt [recDoiOnly, recPmidOnly, recDoiPmid] 1 = some 1 ∧
    cidAt [recDoiOnly, recPmidOnly, recDoiPmid] 2 = some 0 ∧
    cidAt [recPmidOnly, recDoiPmid, recDoiOnly] 0 = some 0 ∧
    cidAt [recPmidOnly, recDoiPmid, recDoiOnly] 1 = some 0 := by
  decide

/-- C4 amended: for two records whose only non-empty identifier is the same
key of the same index, every processing order of any surrounding input puts
both records in the same cluster. -/
theorem dedup_C4 (f : KeyField) (k : String) (A M B : List Rec) (r1 r2 : Rec)
    (h1 : onlyKey f k r1) (h2 : onlyKey f k r2) :
    ∃ c, cidAt (A ++ r1 :: (M ++ r2 :: B)) A.length = some c ∧
      cidAt (A ++ r1 :: (M ++ r2 :: B)) (A.length + M.length + 1) = some c := by
  have hc1 := cidAt_decomp A r1 (M ++ r2 :: B)
  have hreg : List.lookup k (idxOf f (addRecord (run Engine.empty A) r1)) =
      some ((entryOf (run Engine.empty A) r1).cluster_id) :=
    addRecord_onlyKey_lookup (run Engine.empty A) r1 h1
  have hpersist := lookup_persist_run M (addRecord (run Engine.empty A) r1) hreg
  have hrunM : run Engine.empty (A ++ r1 :: M) =
      run (addRecord (run Engine.empty A) r1) M := by
    rw [run_append, run_cons]
  have hsplit : A ++ r1 :: (M ++ r2 :: B) = (A ++ r1 :: M) ++ (r2 :: B) := by simp
  have hlen2 : (A ++ r1 :: M).length = A.length + M.length + 1 := by
    simp [Nat.add_assoc]
  have hc2 : cidAt (A ++ r1 :: (M ++ r2 :: B)) (A.length + M.length + 1) =
      some ((entryOf (run Engine.empty (A ++ r1 :: M)) r2).cluster_id) := by
    rw [hsplit, ← hlen2]
    exact cidAt_decomp (A ++ r1 :: M) r2 B
  have hhit : (entryOf (run Engine.empty (A ++ r1 :: M)) r2).cluster_id =
      (entryOf (run Engine.empty A) r1).cluster_id := by
    refine entryOf_onlyKey_hit _ r2 h2 ?_
    rw [hrunM]
    exact hpersist
  exact ⟨(entryOf (run Engine.empty A) r1).cluster_id, hc1, by rw [hc2, hhit]⟩

/-- C4 witness: two records carrying only the shared PMID `123` co-cluster. -/
theorem dedup_C4_witness :
    onlyKey KeyField.pmid "123" recPmidOnly ∧
    (∃ c, cidAt ([] ++ recPmidOnly :: ([] ++ recPmidOnly :: [])) (List.length ([] : List Rec)) = some c ∧
      cidAt ([] ++ recPmidOnly :: ([] ++ recPmidOnly :: []))
        (List.length ([] : List Rec) + List.length ([] : List Rec) + 1) = some c) :=
  ⟨by decide,
   dedup_C4 KeyField.pmid "123" [] [] [] recPmidOnly recPmidOnly (by decide) (by decide)⟩

/-- C9: the engine is a deterministic function of the ordered input — two
runs from fresh state over the same sequence produce identical cluster
tables and identical logs. -/
theorem dedup_C9 (rs : List Rec) (e1 e2 : Engine)
    (h1 : e1 = runEngine rs) (h2 : e2 = runEngine rs) :
    e1.clusters = e2.clusters ∧ e1.log = e2.log := by
  subst h1
  subst h2
  exact ⟨rfl, rfl⟩

/-- C9 witness: two runs over a one-record input agree. -/
theorem dedup_C9_witness :
    (runEngine [recDoiOnly]).clusters = (runEngine [recDoiOnly]).clusters ∧
    (runEngine [recDoiOnly]).log = (runEngine [recDoiOnly]).log :=
  dedup_C9 [recDoiOnly] (runEngine [recDoiOnly]) (runEngine [recDoiOnly]) rfl rfl

/-! ## List helpers for the output layer -/

theorem headD_mem {α : Type} {l : List α} (d : α) (h : l ≠ []) : l.headD d ∈ l := by
  cases l with
  | nil => exact absurd rfl h
  | cons a t => simp

theorem mem_insertSorted {α : Type} (lt : α → α → Bool) (a b : α) :
    ∀ l : List α, b ∈ insertSorted lt a l ↔ b = a ∨ b ∈ l := by
  intro l
  induction l with
  | nil => simp [insertSorted]
  | cons c t ih =>
    unfold insertSorted
    split
    · simp only [List.mem_cons, ih]
      tauto
    · simp only [List.mem_cons]

theorem mem_isort {α : Type} (lt : α → α → Bool) (a : α) :
    ∀ l : List α, a ∈ isort lt l ↔ a ∈ l := by
  intro l
  induction l with
  | nil => simp [isort]
  | cons c t ih =>
    unfold isort
    rw [mem_insertSorted, ih]
    simp

theorem length_insertSorted {α : Type} (lt : α → α → Bool) (a : α) :
    ∀ l : List α, (insertSorted lt a l).length = l.length + 1 := by
  intro l
  induction l with
  | nil => rfl
  | cons c t ih =>
    unfold insertSorted
    split
    · simp [ih]
    · simp

theorem length_isort {α : Type} (lt : α → α → Bool) :
    ∀ l : List α, (isort lt l).length = l.length := by
  intro l
  induction l with
  | nil => rfl
  | cons c t ih =>
    unfold isort
    rw [length_insertSorted, ih]
    simp

/-! ## `pyMax` lemmas -/

theorem pyMax_foldl_mem :
    ∀ (l : List String) (acc : String),
      l.foldl (fun acc s => if s.length > acc.length then s else acc) acc ∈ acc :: l := by
  intro l
  induction l with
  | nil => intro acc; simp
  | cons s t ih =>
    intro acc
    have h := ih (if s.length > acc.length then s else acc)
    rcases List.mem_cons.mp h with h1 | h2
    · rw [List.foldl_cons, h1]
      split <;> simp
    · simp [List.foldl_cons]
      right
      right
      exact h2

theorem pyMax_foldl_le_init :
    ∀ (l : List String) (acc : String),
      acc.length ≤ (l.foldl (fun acc s => if s.length > acc.length then s else acc) acc).length := by
  intro l
  induction l with
  | nil => intro acc; exact Nat.le_refl _
  | cons s t ih =>
    intro acc
    rw [List.foldl_cons]
    refine Nat.le_trans ?_ (ih _)
    split
    · omega
    · exact Nat.le_refl _

theorem pyMax_foldl_ge :
    ∀ (l : List String) (acc a : String), a ∈ l →
      a.length ≤ (l.foldl (fun acc s => if s.length > acc.length then s else acc) acc).length := by
  intro l
  induction l with
  | nil => intro acc a ha; simp at ha
  | cons s t ih =>
    intro acc a ha
    rcases List.mem_cons.mp ha with h1 | h2
    · subst h1
      rw [List.foldl_cons]
      refine Nat.le_trans ?_ (pyMax_foldl_le_init t _)
      split <;> omega
    · rw [List.foldl_cons]
      exact ih _ a h2

theorem pyMax_mem {l : List String} (h : l ≠ []) : pyMax l ∈ l := by
  cases l with
  | nil => exact absurd rfl h
  | cons s t => exact pyMax_foldl_mem t s

theorem pyMax_ge {l : List String} {a : String} (h : a ∈ l) : a.length ≤ (pyMax l).length := by
  cases l with
  | nil => simp at h
  | cons s t =>
    rcases List.mem_cons.mp h with h1 | h2
    · subst h1
      exact pyMax_foldl_le_init t a
    · exact pyMax_foldl_ge t s a h2

theorem pairs_filter_project (q : String → Bool) (recs : List Rec) :
    ((((recs.filter (fun r => r.doi_normalized ≠ "")).map
        (fun r => (r.doi_normalized, r.source_db))).filter (fun p => q p.1)).map
      (fun p => p.1))
      = (recs.map (fun r => r.doi_normalized)).filter (fun d => decide (d ≠ "") && q d) := by
  induction recs with
  | nil => rfl
  | cons r t ih =>
    by_cases hd : r.doi_normalized = ""
    · simp only [List.filter_cons, List.map_cons, hd]
      simpa using ih
    · simp only [List.filter_cons, List.map_cons, decide_eq_true (show r.doi_normalized ≠ "" from hd)]
      cases hq : q r.doi_normalized
      · simpa [hq] using ih
      · simpa [hq] using ih

theorem preprintDoisOf_ne_nil (recs : List Rec) :
    preprintDoisOf recs ≠ [] ↔
      ∃ r ∈ recs, r.doi_normalized ≠ "" ∧ is_preprint_doi r.doi_normalized = true := by
  unfold preprintDoisOf
  rw [Ne, List.filter_eq_nil_iff]
  push_neg
  constructor
  · rintro ⟨d, hd, hp⟩
    obtain ⟨r, hr, rfl⟩ := List.mem_map.mp hd
    simp only [Bool.and_eq_true, decide_eq_true_eq] at hp
    exact ⟨r, hr, hp.1, hp.2⟩
  · rintro ⟨r, hr, hne, hp⟩
    refine ⟨r.doi_normalized, List.mem_map.mpr ⟨r, hr, rfl⟩, ?_⟩
    simp [hne, hp]

theorem publishedDoisOf_ne_nil (recs : List Rec) :
    publishedDoisOf recs ≠ [] ↔
      ∃ r ∈ recs, r.doi_normalized ≠ "" ∧ is_preprint_doi r.doi_normalized = false := by
  unfold publishedDoisOf
  rw [Ne, List.filter_eq_nil_iff]
  push_neg
  constructor
  · rintro ⟨d, hd, hp⟩
    obtain ⟨r, hr, rfl⟩ := List.mem_map.mp hd
    simp only [Bool.and_eq_true, decide_eq_true_eq, Bool.not_eq_true'] at hp
    exact ⟨r, hr, hp.1, hp.2⟩
  · rintro ⟨r, hr, hne, hp⟩
    refine ⟨r.doi_normalized, List.mem_map.mpr ⟨r, hr, rfl⟩, ?_⟩
    simp [hne, hp]

/-! ## Claim theorems: preprint resolver and representative selection -/

theorem dedupOf_cluster_id (setL : List String → List String) (p : Nat × List Rec) :
    (dedupOf setL p).cluster_id = p.1 := rfl

theorem dedupOf_abstract (setL : List String → List String) (cid : Nat) (recs : List Rec) :
    (dedupOf setL (cid, recs)).abstract =
      (if 1 < recs.length ∧
          ((recs.filter (fun r => r.abstract ≠ "")).map (fun r => r.abstract)) ≠ []
       then pyMax ((recs.filter (fun r => r.abstract ≠ "")).map (fun r => r.abstract))
       else ((isort keyLt recs).headD defaultRec).abstract) := rfl

theorem dedupOf_doi (setL : List String → List String) (cid : Nat) (recs : List Rec) :
    (dedupOf setL (cid, recs)).doi =
      ((setL ((recs.filter (fun r => r.doi_original ≠ "")).map
          (fun r => r.doi_original))).filter
        (fun d => d ≠ "" && !(is_preprint_doi d))).headD
      ((setL ((recs.filter (fun r => r.doi_original ≠ "")).map
          (fun r => r.doi_original))).headD "") := rfl

theorem dedupOf_mem_getDeduplicated (e : Engine) (setL : List String → List String)
    {p : Nat × List Rec} (h : p ∈ e.clusters) :
    dedupOf setL p ∈ getDeduplicated e setL := by
  unfold getDeduplicated
  rw [mem_isort]
  exact List.mem_map.mpr ⟨p, h, rfl⟩

/-- C6: for every cluster, the output abstract is a longest member abstract —
non-empty whenever some member has a non-empty abstract, and empty when all
member abstracts are empty — independently of the representative choice and
of the set-enumeration order. -/
theorem dedup_C6 (e : Engine) (setL : List String → List String) (cid : Nat)
    (recs : List Rec) (hmem : (cid, recs) ∈ e.clusters) (hne : recs ≠ []) :
    ∃ out ∈ getDeduplicated e setL, out.cluster_id = cid ∧
      ((∀ r ∈ recs, r.abstract = "") → out.abstract = "") ∧
      ((∃ r ∈ recs, r.abstract ≠ "") →
        out.abstract ∈ recs.map (fun r => r.abstract) ∧
        (∀ r ∈ recs, r.abstract.length ≤ out.abstract.length) ∧
        out.abstract ≠ "") := by
  refine ⟨dedupOf setL (cid, recs), dedupOf_mem_getDeduplicated e setL hmem, rfl, ?_, ?_⟩
  · intro hall
    rw [dedupOf_abstract]
    have hfilter : recs.filter (fun r => r.abstract ≠ "") = [] := by
      rw [List.filter_eq_nil_iff]
      intro r hr
      simp [hall r hr]
    rw [if_neg (fun hc => hc.2 (by rw [hfilter]; rfl))]
    have hbest : ((isort keyLt recs).headD defaultRec) ∈ recs := by
      rw [← mem_isort keyLt]
      refine headD_mem _ ?_
      intro hnil
      apply hne
      have := length_isort keyLt recs
      rw [hnil] at this
      exact List.length_eq_zero.mp this.symm
    exact hall _ hbest
  · intro hex
    obtain ⟨r0, hr0, hr0ne⟩ := hex
    have hmemAbs : r0.abstract ∈ (recs.filter (fun r => r.abstract ≠ "")).map
        (fun r => r.abstract) :=
      List.mem_map.mpr ⟨r0, List.mem_filter.mpr ⟨hr0, by simp [hr0ne]⟩, rfl⟩
    have hAbsNe : ((recs.filter (fun r => r.abstract ≠ "")).map (fun r => r.abstract)) ≠ [] :=
      List.ne_nil_of_mem hmemAbs
    have hsub : ∀ a ∈ (recs.filter (fun r => r.abstract ≠ "")).map (fun r => r.abstract),
        a ∈ recs.map (fun r => r.abstract) ∧ a ≠ "" := by
      intro a ha
      obtain ⟨r, hr, rfl⟩ := List.mem_map.mp ha
      have hrf := List.mem_filter.mp hr
      refine ⟨List.mem_map.mpr ⟨r, hrf.1, rfl⟩, by simpa using hrf.2⟩
    rw [dedupOf_abstract]
    by_cases hlen : 1 < recs.length
    · rw [if_pos ⟨hlen, hAbsNe⟩]
      have hmax := pyMax_mem hAbsNe
      refine ⟨(hsub _ hmax).1, ?_, (hsub _ hmax).2⟩
      intro r hr
      by_cases hra : r.abstract = ""
      · rw [hra]
        exact Nat.zero_le _
      · exact pyMax_ge (List.mem_map.mpr ⟨r, List.mem_filter.mpr ⟨hr, by simp [hra]⟩, rfl⟩)
    · rw [if_neg (by tauto)]
      obtain ⟨r1, rfl⟩ : ∃ r1, recs = [r1] := by
        cases recs with
        | nil => exact absurd rfl hne
        | cons a t =>
          cases t with
          | nil => exact ⟨a, rfl⟩
          | cons b t' => simp at hlen
      have hr1 : r0 = r1 := by simpa using hr0
      subst hr1
      refine ⟨?_, ?_, ?_⟩
      · simp [isort, insertSorted]
      · intro r hr
        have : r = r0 := by simpa using hr
        subst this
        simp [isort, insertSorted]
      · simp [isort, insertSorted]
        exact hr0ne

/-- C6 witness: the preprint/published pair's cluster gets the longer
abstract. -/
theorem dedup_C6_witness :
    (0, [recPre, recPub]) ∈ (runEngine [recPre, recPub]).clusters ∧
    ([recPre, recPub] : List Rec) ≠ [] ∧
    (∃ out ∈ getDeduplicated (runEngine [recPre, recPub]) (fun l => l.dedup),
      out.cluster_id = 0 ∧
      ((∀ r ∈ [recPre, recPub], r.abstract = "") → out.abstract = "") ∧
      ((∃ r ∈ [recPre, recPub], r.abstract ≠ "") →
        out.abstract ∈ [recPre, recPub].map (fun r => r.abstract) ∧
        (∀ r ∈ [recPre, recPub], r.abstract.length ≤ out.abstract.length) ∧
        out.abstract ≠ "")) :=
  ⟨by decide, by decide,
   dedup_C6 (runEngine [recPre, recPub]) (fun l => l.dedup) 0 [recPre, recPub]
     (by decide) (by decide)⟩

/-- C7: `resolve_preprints` emits exactly one link per cluster that has at
least two members and whose non-empty normalized member DOIs include at least
one preprint and one published DOI; the link carries the cluster ID, the
first published DOI, the full preprint DOI list (member order) and the
founding record's title. -/
theorem dedup_C7 (e : Engine) (link : PreLink) :
    link ∈ resolvePreprints e ↔
      ∃ cid recs, (cid, recs) ∈ e.clusters ∧ 2 ≤ recs.length ∧
        (∃ r ∈ recs, r.doi_normalized ≠ "" ∧ is_preprint_doi r.doi_normalized = true) ∧
        (∃ r ∈ recs, r.doi_normalized ≠ "" ∧ is_preprint_doi r.doi_normalized = false) ∧
        link = { cluster_id := cid
                 published_doi := (publishedDoisOf recs).headD ""
                 preprint_dois := preprintDoisOf recs
                 title := (recs.headD defaultRec).title_original.take 100 } := by
  unfold resolvePreprints
  rw [List.mem_filterMap]
  constructor
  · rintro ⟨⟨cid, recs⟩, hp, hsome⟩
    refine ⟨cid, recs, hp, ?_⟩
    simp only at hsome
    split at hsome
    · exact absurd hsome (by simp)
    · rename_i hlen
      have hpre : ((((recs.filter (fun r => r.doi_normalized ≠ "")).map
          (fun r => (r.doi_normalized, r.source_db))).filter
            (fun q => is_preprint_doi q.1)).map (fun q => q.1)) = preprintDoisOf recs := by
        rw [pairs_filter_project]
        rfl
      have hpub : ((((recs.filter (fun r => r.doi_normalized ≠ "")).map
          (fun r => (r.doi_normalized, r.source_db))).filter
            (fun q => q.1 ≠ "" && !(is_preprint_doi q.1))).map (fun q => q.1)) =
          publishedDoisOf recs := by
        refine (pairs_filter_project (fun d => decide (d ≠ "") && !(is_preprint_doi d))
          recs).trans ?_
        unfold publishedDoisOf
        refine List.filter_congr ?_
        intro d _
        cases hd : decide (d ≠ "") <;> simp [hd]
      rw [hpre, hpub] at hsome
      split at hsome
      · rename_i hcond
        refine ⟨by omega, (preprintDoisOf_ne_nil recs).mp hcond.1,
          (publishedDoisOf_ne_nil recs).mp hcond.2, ?_⟩
        cases hsome
        rfl
      · exact absurd hsome (by simp)
  · rintro ⟨cid, recs, hp, hlen, hpre, hpub, rfl⟩
    refine ⟨(cid, recs), hp, ?_⟩
    simp only
    rw [if_neg (by omega)]
    have hpre' : ((((recs.filter (fun r => r.doi_normalized ≠ "")).map
        (fun r => (r.doi_normalized, r.source_db))).filter
          (fun q => is_preprint_doi q.1)).map (fun q => q.1)) = preprintDoisOf recs := by
      rw [pairs_filter_project]
      rfl
    have hpub' : ((((recs.filter (fun r => r.doi_normalized ≠ "")).map
        (fun r => (r.doi_normalized, r.source_db))).filter
          (fun q => q.1 ≠ "" && !(is_preprint_doi q.1))).map (fun q => q.1)) =
        publishedDoisOf recs := by
      refine (pairs_filter_project (fun d => decide (d ≠ "") && !(is_preprint_doi d))
        recs).trans ?_
      unfold publishedDoisOf
      refine List.filter_congr ?_
      intro d _
      cases hd : decide (d ≠ "") <;> simp [hd]
    rw [hpre', hpub']
    rw [if_pos ⟨(preprintDoisOf_ne_nil recs).mpr hpre, (publishedDoisOf_ne_nil recs).mpr hpub⟩]

/-- C7 witness: the preprint/published pair produces exactly the expected
link for cluster 0. -/
theorem dedup_C7_witness :
    ({ cluster_id := 0
       published_doi := "10.1038/s41586-023-00001-x"
       preprint_dois := ["10.1101/2023.01.01.500001"]
       title := "Foo Bar Study" } : PreLink) ∈
      resolvePreprints (runEngine [recPre, recPub]) :=
  (dedup_C7 (runEngine [recPre, recPub]) _).mpr
    ⟨0, [recPre, recPub], by decide, by decide, by decide, by decide, by decide⟩

/-! ## C8: the output DOI field -/

/-- C8 counterexample: the cluster of `recPubA, recPubB` has insertion-order
first published DOI `10.1000/a`, but the code builds `all_dois` via
`list(set(...))`, whose enumeration order is unspecified; under the
legitimate set enumeration that reverses the first-occurrence order, the
output `doi` is `10.2000/b` — so the output DOI is not determined by the
order in which member records were added. -/
theorem dedup_C8_counterexample :
    IsSetEnum (fun l => l.dedup.reverse) ∧
    (runEngine [recPubA, recPubB]).clusters = [(0, [recPubA, recPubB])] ∧
    (([recPubA, recPubB].filter
        (fun r => r.doi_original ≠ "" && !(is_preprint_doi r.doi_original))).map
      (fun r => r.doi_original)).head? = some "10.1000/a" ∧
    (getDeduplicated (runEngine [recPubA, recPubB]) (fun l => l.dedup.reverse)).map
      (fun o => o.doi) = ["10.2000/b"] ∧
    ("10.2000/b" : String) ≠ "10.1000/a" :=
  ⟨fun l => List.reverse_perm _, by decide, by decide, by decide, by decide⟩

/-- C8 amended: under any set-enumeration order, the output `doi` is a
published member DOI whenever the cluster contains one, otherwise a member
DOI of any kind whenever the cluster contains any DOI, otherwise empty;
which published (resp. any) DOI comes first is decided by the unspecified
`list(set(...))` enumeration, not by record insertion order. -/
theorem dedup_C8 (e : Engine) (setL : List String → List String) (hset : IsSetEnum setL)
    (cid : Nat) (recs : List Rec) (hmem : (cid, recs) ∈ e.clusters) :
    ∃ out ∈ getDeduplicated e setL, out.cluster_id = cid ∧
      ((∃ r ∈ recs, r.doi_original ≠ "" ∧ is_preprint_doi r.doi_original = false) →
        ∃ r ∈ recs, out.doi = r.doi_original ∧ out.doi ≠ "" ∧
          is_preprint_doi out.doi = false) ∧
      ((∀ r ∈ recs, r.doi_original = "" ∨ is_preprint_doi r.doi_original = true) →
        (∃ r ∈ recs, r.doi_original ≠ "") →
        ∃ r ∈ recs, out.doi = r.doi_original ∧ out.doi ≠ "") ∧
      ((∀ r ∈ recs, r.doi_original = "") → out.doi = "") := by
  refine ⟨dedupOf setL (cid, recs), dedupOf_mem_getDeduplicated e setL hmem, rfl, ?_, ?_, ?_⟩
  all_goals
    rw [dedupOf_doi]
  · rintro ⟨r0, hr0, hr0ne, hr0pub⟩
    set origs := (recs.filter (fun r => r.doi_original ≠ "")).map (fun r => r.doi_original)
      with horigs
    have hmemiff : ∀ a, a ∈ setL origs ↔ a ∈ origs := by
      intro a
      rw [(hset origs).mem_iff, List.mem_dedup]
    have hd0 : r0.doi_original ∈ setL origs := by
      rw [hmemiff]
      exact List.mem_map.mpr ⟨r0, List.mem_filter.mpr ⟨hr0, by simp [hr0ne]⟩, rfl⟩
    have hpubne : (setL origs).filter (fun d => d ≠ "" && !(is_preprint_doi d)) ≠ [] :=
      List.ne_nil_of_mem (List.mem_filter.mpr ⟨hd0, by simp [hr0ne, hr0pub]⟩)
    set doiOut := ((setL origs).filter (fun d => d ≠ "" && !(is_preprint_doi d))).headD
      ((setL origs).headD "") with hdoi
    have hout : doiOut ∈ (setL origs).filter (fun d => d ≠ "" && !(is_preprint_doi d)) :=
      headD_mem ((setL origs).headD "") hpubne
    have hprops := List.mem_filter.mp hout
    have hin : doiOut ∈ origs := (hmemiff doiOut).mp hprops.1
    obtain ⟨r, hr, hrd⟩ := List.mem_map.mp hin
    have hrf := List.mem_filter.mp hr
    refine ⟨r, hrf.1, hrd.symm, ?_, ?_⟩
    · have := hprops.2
      simp only [Bool.and_eq_true, decide_eq_true_eq] at this
      exact this.1
    · have := hprops.2
      simp only [Bool.and_eq_true, decide_eq_true_eq, Bool.not_eq_true'] at this
      exact this.2
  · intro hnopub hsome
    obtain ⟨r0, hr0, hr0ne⟩ := hsome
    set origs := (recs.filter (fun r => r.doi_original ≠ "")).map (fun r => r.doi_original)
      with horigs
    have hmemiff : ∀ a, a ∈ setL origs ↔ a ∈ origs := by
      intro a
      rw [(hset origs).mem_iff, List.mem_dedup]
    have hpubnil : (setL origs).filter (fun d => d ≠ "" && !(is_preprint_doi d)) = [] := by
      rw [List.filter_eq_nil_iff]
      intro d hd
      have hin : d ∈ origs := (hmemiff d).mp hd
      obtain ⟨r, hr, hrd⟩ := List.mem_map.mp hin
      have hrf := List.mem_filter.mp hr
      have hne : r.doi_original ≠ "" := by simpa using hrf.2
      rcases hnopub r hrf.1 with h | h
      · exact absurd h hne
      · rw [← hrd]
        simp [h]
    have hallne : setL origs ≠ [] := by
      refine List.ne_nil_of_mem ((hmemiff r0.doi_original).mpr ?_)
      exact List.mem_map.mpr ⟨r0, List.mem_filter.mpr ⟨hr0, by simp [hr0ne]⟩, rfl⟩
    rw [hpubnil]
    have hout : (setL origs).headD "" ∈ setL origs := headD_mem "" hallne
    have hin : (setL origs).headD "" ∈ origs := (hmemiff _).mp hout
    obtain ⟨r, hr, hrd⟩ := List.mem_map.mp hin
    have hrf := List.mem_filter.mp hr
    refine ⟨r, hrf.1, ?_, ?_⟩
    · simp [hrd]
    · rw [← hrd]
      simpa using hrf.2
  · intro hall
    have horignil : (recs.filter (fun r => r.doi_original ≠ "")).map
        (fun r => r.doi_original) = [] := by
      have : recs.filter (fun r => r.doi_original ≠ "") = [] := by
        rw [List.filter_eq_nil_iff]
        intro r hr
        simp [hall r hr]
      rw [this]
      rfl
    rw [horignil]
    have h := hset ([] : List String)
    rw [List.dedup_nil] at h
    rw [h.eq_nil]
    rfl

/-- C8 witness: with the first-occurrence set enumeration, the two-published-
DOI cluster's output DOI is one of its member DOIs and is published. -/
theorem dedup_C8_witness :
    IsSetEnum (fun l : List String => l.dedup) ∧
    (∃ out ∈ getDeduplicated (runEngine [recPubA, recPubB]) (fun l => l.dedup),
      out.cluster_id = 0 ∧
      ((∃ r ∈ [recPubA, recPubB], r.doi_original ≠ "" ∧
          is_preprint_doi r.doi_original = false) →
        ∃ r ∈ [recPubA, recPubB], out.doi = r.doi_original ∧ out.doi ≠ "" ∧
          is_preprint_doi out.doi = false) ∧
      ((∀ r ∈ [recPubA, recPubB], r.doi_original = "" ∨
          is_preprint_doi r.doi_original = true) →
        (∃ r ∈ [recPubA, recPubB], r.doi_original ≠ "") →
        ∃ r ∈ [recPubA, recPubB], out.doi = r.doi_original ∧ out.doi ≠ "") ∧
      ((∀ r ∈ [recPubA, recPubB], r.doi_original = "") → out.doi = "")) :=
  ⟨fun l => List.Perm.refl _,
   dedup_C8 (runEngine [recPubA, recPubB]) (fun l => l.dedup) (fun l => List.Perm.refl _)
     0 [recPubA, recPubB] (by decide)⟩

/-! ## Character lemmas for the normalizer -/

theorem toLower_toNat (c : Char) :
    (Char.toLower c).toNat = if 65 ≤ c.toNat ∧ c.toNat ≤ 90 then c.toNat + 32 else c.toNat := by
  unfold Char.toLower
  split
  · rename_i h
    rw [if_pos (by omega)]
    have hv : (c.toNat + 32).isValidChar := Or.inl (by omega)
    unfold Char.ofNat
    rw [dif_pos hv]
    unfold Char.ofNatAux
    simp [Char.toNat, UInt32.toNat]
  · rename_i h
    rw [if_neg (by omega)]

theorem toLower_fix (d : Char) (hnot : ¬(65 ≤ d.toNat ∧ d.toNat ≤ 90)) :
    Char.toLower d = d := by
  show (if d.toNat ≥ 65 ∧ d.toNat ≤ 90 then Char.ofNat (d.toNat + 32) else d) = d
  rw [if_neg (by omega)]

theorem toLower_toLower (c : Char) :
    Char.toLower (Char.toLower c) = Char.toLower c := by
  have h := toLower_toNat c
  refine toLower_fix _ ?_
  by_cases hc : 65 ≤ c.toNat ∧ c.toNat ≤ 90
  · rw [if_pos hc] at h
    omega
  · rw [if_neg hc] at h
    omega

theorem map_eq_self_of {α : Type} {f : α → α} :
    ∀ {l : List α}, (∀ a ∈ l, f a = a) → l.map f = l := by
  intro l
  induction l with
  | nil => intro _; rfl
  | cons a t ih =>
    intro h
    rw [List.map_cons, h a (List.mem_cons_self a t), ih (fun b hb => h b (List.mem_cons_of_mem a hb))]

/-! ## Membership lemmas for the normalizer pipeline -/

theorem mem_squeezeAux : ∀ (b : Bool) (x : List Char) (c : Char),
    c ∈ squeezeAux b x → c = ' ' ∨ c ∈ x := by
  intro b x
  induction x generalizing b with
  | nil => intro c hc; simp [squeezeAux] at hc
  | cons a t ih =>
    intro c hc
    unfold squeezeAux at hc
    split at hc
    · split at hc
      · rcases ih true c hc with h | h
        · exact Or.inl h
        · exact Or.inr (List.mem_cons_of_mem a h)
      · rcases List.mem_cons.mp hc with h | h
        · exact Or.inl h
        · rcases ih true c h with h' | h'
          · exact Or.inl h'
          · exact Or.inr (List.mem_cons_of_mem a h')
    · rcases List.mem_cons.mp hc with h | h
      · exact Or.inr (h ▸ List.mem_cons_self a t)
      · rcases ih false c h with h' | h'
        · exact Or.inl h'
        · exact Or.inr (List.mem_cons_of_mem a h')

theorem mem_afterGt : ∀ (l r : List Char), afterGt l = some r → ∀ c ∈ r, c ∈ l := by
  intro l
  induction l with
  | nil => intro r h; simp [afterGt] at h
  | cons a t ih =>
    intro r h c hc
    unfold afterGt at h
    split at h
    · cases h
      exact List.mem_cons_of_mem a hc
    · exact List.mem_cons_of_mem a (ih r h c hc)

theorem mem_tagEnd : ∀ (l r : List Char), tagEnd l = some r → ∀ c ∈ r, c ∈ l := by
  intro l r h c hc
  cases l with
  | nil => simp [tagEnd] at h
  | cons a t =>
    simp only [tagEnd] at h
    by_cases ha : a = '>'
    · rw [if_pos ha] at h
      exact absurd h (by simp)
    · rw [if_neg ha] at h
      exact List.mem_cons_of_mem a (mem_afterGt t r h c hc)

theorem mem_stripTagsAux : ∀ (fuel : Nat) (x : List Char) (c : Char),
    c ∈ stripTagsAux fuel x → c ∈ x := by
  intro fuel
  induction fuel with
  | zero => intro x c hc; exact hc
  | succ n ih =>
    intro x c hc
    cases x with
    | nil => simp [stripTagsAux] at hc
    | cons a t =>
      unfold stripTagsAux at hc
      split at hc
      · rename_i ha
        cases hte : tagEnd t with
        | some rest =>
          rw [hte] at hc
          exact List.mem_cons_of_mem a (mem_tagEnd t rest hte c (ih rest c hc))
        | none =>
          rw [hte] at hc
          rcases List.mem_cons.mp hc with h | h
          · exact h ▸ List.mem_cons_self a t
          · exact List.mem_cons_of_mem a (ih t c h)
      · rcases List.mem_cons.mp hc with h | h
        · exact h ▸ List.mem_cons_self a t
        · exact List.mem_cons_of_mem a (ih t c h)

theorem mem_stripTags {x : List Char} {c : Char} (h : c ∈ stripTags x) : c ∈ x :=
  mem_stripTagsAux x.length x c h

theorem mem_pyStrip {l : List Char} {c : Char} (h : c ∈ pyStrip l) : c ∈ l := by
  unfold pyStrip at h
  rw [List.mem_reverse] at h
  have h2 := (List.dropWhile_suffix wsChar).subset h
  rw [List.mem_reverse] at h2
  exact (List.dropWhile_suffix wsChar).subset h2

/-! ## Fixed-point lemmas for the normalizer pipeline -/

theorem stripTagsAux_no_lt : ∀ (fuel : Nat) (l : List Char),
    (∀ c ∈ l, c ≠ '<') → stripTagsAux fuel l = l := by
  intro fuel
  induction fuel with
  | zero => intro l _; rfl
  | succ n ih =>
    intro l h
    cases l with
    | nil => rfl
    | cons a t =>
      unfold stripTagsAux
      rw [if_neg (h a (List.mem_cons_self a t))]
      rw [ih t (fun c hc => h c (List.mem_cons_of_mem a hc))]

theorem stripTags_no_lt {l : List Char} (h : ∀ c ∈ l, c ≠ '<') : stripTags l = l :=
  stripTagsAux_no_lt l.length l h

theorem head?_dropWhile {p : Char → Bool} : ∀ {l : List Char} {c : Char},
    (l.dropWhile p).head? = some c → p c = false := by
  intro l
  induction l with
  | nil => intro c hc; simp at hc
  | cons a t ih =>
    intro c hc
    rw [List.dropWhile_cons] at hc
    split at hc
    · exact ih hc
    · rename_i h
      rw [List.head?_cons, Option.some.injEq] at hc
      rw [← hc]
      exact Bool.of_not_eq_true h

theorem dropWhile_eq_self {p : Char → Bool} {l : List Char}
    (h : ∀ c, l.head? = some c → p c = false) : l.dropWhile p = l := by
  cases l with
  | nil => rfl
  | cons a t =>
    rw [List.dropWhile_cons, if_neg]
    rw [h a rfl]
    simp

theorem pyStrip_head {l : List Char} {c : Char} (h : (pyStrip l).head? = some c) :
    wsChar c = false := by
  unfold pyStrip at h
  have hsuf := List.dropWhile_suffix (l := (l.dropWhile wsChar).reverse) wsChar
  obtain ⟨u, hu⟩ := hsuf
  have hpre : l.dropWhile wsChar =
      ((l.dropWhile wsChar).reverse.dropWhile wsChar).reverse ++ u.reverse := by
    have := congrArg List.reverse hu
    rw [List.reverse_append, List.reverse_reverse] at this
    exact this.symm
  cases hrev : ((l.dropWhile wsChar).reverse.dropWhile wsChar).reverse with
  | nil => rw [hrev] at h; simp at h
  | cons b t =>
    rw [hrev] at h
    rw [List.head?_cons, Option.some.injEq] at h
    subst h
    rw [hrev] at hpre
    refine head?_dropWhile (l := l) ?_
    rw [hpre]
    rfl

theorem pyStrip_last {l : List Char} {c : Char} :
    ((pyStrip l).reverse.head? = some c) → wsChar c = false := by
  intro h
  unfold pyStrip at h
  rw [List.reverse_reverse] at h
  exact head?_dropWhile h

theorem pyStrip_idem (l : List Char) : pyStrip (pyStrip l) = pyStrip l := by
  have ha : (pyStrip l).dropWhile wsChar = pyStrip l :=
    dropWhile_eq_self (fun c hc => pyStrip_head hc)
  show (((pyStrip l).dropWhile wsChar).reverse.dropWhile wsChar).reverse = pyStrip l
  rw [ha]
  rw [dropWhile_eq_self (fun c hc => pyStrip_last hc)]
  exact List.reverse_reverse _

/-! ## Whitespace collapsing commutes with punctuation removal

`squeezeAux b (filter keepChar (squeezeAux b' x)) = squeezeAux b (filter keepChar x)`
for the three state pairings that arise, proved by one simultaneous
induction. -/

theorem squeeze_filter_gkm : ∀ x : List Char,
    squeezeAux false (List.filter keepChar (squeezeAux false x)) =
      squeezeAux false (List.filter keepChar x) ∧
    squeezeAux true (List.filter keepChar (squeezeAux true x)) =
      squeezeAux true (List.filter keepChar x) ∧
    squeezeAux true (List.filter keepChar (squeezeAux false x)) =
      squeezeAux true (List.filter keepChar x) := by
  intro x
  have hws : wsChar ' ' = true := by decide
  have hkp : keepChar ' ' = true := by decide
  induction x with
  | nil => exact ⟨rfl, rfl, rfl⟩
  | cons c t ih =>
    obtain ⟨ihG, ihK, ihM⟩ := ih
    by_cases hw : wsChar c = true
    · have hk : keepChar c = true := by simp [keepChar, hw]
      refine ⟨?_, ?_, ?_⟩ <;>
        simp [squeezeAux, List.filter_cons, hw, hk, hws, hkp, ihK]
    · by_cases hk : keepChar c = true
      · refine ⟨?_, ?_, ?_⟩ <;>
          simp [squeezeAux, List.filter_cons, hw, hk, ihG]
      · refine ⟨?_, ?_, ?_⟩ <;>
          simp [squeezeAux, List.filter_cons, hw, hk, ihG, ihM]

theorem squeeze_filter_squeeze (x : List Char) :
    squeeze (List.filter keepChar (squeeze x)) = squeeze (List.filter keepChar x) :=
  (squeeze_filter_gkm x).1

/-- Statement of `normalize_title` written as the character-level pipeline (the empty-string
guard is absorbed: the pipeline maps the empty list to the empty list). -/
theorem normalize_pipeline (s : String) :
    normalize_title s = String.mk
      (pyStrip (squeeze (List.filter keepChar (stripTags (s.data.map Char.toLower))))) := by
  unfold normalize_title nfcNormalize
  by_cases h : s = ""
  · rw [if_pos h, h]
    rfl
  · rw [if_neg h]

/-! ## Claim theorems: title normalization -/

/-- C5 counterexample: `"a <b> c"` and `"a b c"` differ only by punctuation
characters (they agree character-for-character after punctuation is deleted),
yet normalize differently, because the inserted punctuation forms a markup
span that tag-stripping removes together with the word between the brackets;
and `"war & peace"` and `"war peace"` differ by one whitespace-separated
word, yet normalize identically. -/
theorem dedup_C5_counterexample :
    ("a <b> c".data.filter keepChar = "a b c".data.filter keepChar) ∧
    normalize_title "a <b> c" ≠ normalize_title "a b c" ∧
    wsWords "war & peace" ≠ wsWords "war peace" ∧
    normalize_title "war & peace" = normalize_title "war peace" := by
  refine ⟨by decide, by decide, by decide, by decide⟩

/-- C5 amended: titles that agree after lowercasing, markup-span removal and
whitespace-run collapsing (which covers all pairs differing only by letter
case, by markup spans, or by whitespace runs) normalize identically;
punctuation differences are not covered, since punctuation can create or
destroy markup spans, and a title may lose a punctuation-only word entirely. -/
theorem dedup_C5 (s1 s2 : String)
    (h : squeeze (stripTags (s1.data.map Char.toLower)) =
         squeeze (stripTags (s2.data.map Char.toLower))) :
    normalize_title s1 = normalize_title s2 := by
  rw [normalize_pipeline s1, normalize_pipeline s2]
  have h1 := squeeze_filter_squeeze (stripTags (s1.data.map Char.toLower))
  have h2 := squeeze_filter_squeeze (stripTags (s2.data.map Char.toLower))
  rw [← h1, ← h2, h]

/-- C5 amended witness: `"A  B"` and `"a B"` differ by case and a whitespace
run and normalize identically. -/
theorem dedup_C5_witness :
    (squeeze (stripTags ("A  B".data.map Char.toLower)) =
      squeeze (stripTags ("a B".data.map Char.toLower))) ∧
    normalize_title "A  B" = normalize_title "a B" :=
  ⟨by decide, dedup_C5 "A  B" "a B" (by decide)⟩

/-! ## Shape of whitespace-collapsed output -/

theorem noWsRun_tail {a : Char} {l : List Char} (h : noWsRun (a :: l)) : noWsRun l := by
  cases l with
  | nil => trivial
  | cons b t => exact h.2

theorem noWsRun_cons_left {a : Char} {l : List Char} (ha : wsChar a = false)
    (h : noWsRun l) : noWsRun (a :: l) := by
  cases l with
  | nil => trivial
  | cons b t =>
    refine ⟨?_, h⟩
    rintro ⟨h1, _⟩
    rw [ha] at h1
    exact absurd h1 (by simp)

theorem noWsRun_cons_of_head {a : Char} {l : List Char}
    (hhead : ∀ b, l.head? = some b → wsChar b = false) (h : noWsRun l) :
    noWsRun (a :: l) := by
  cases l with
  | nil => trivial
  | cons b t =>
    refine ⟨?_, h⟩
    rintro ⟨_, h2⟩
    rw [hhead b rfl] at h2
    exact absurd h2 (by simp)

theorem squeezeAux_headNotWs : ∀ (x : List Char) (b : Char),
    (squeezeAux true x).head? = some b → wsChar b = false := by
  intro x
  induction x with
  | nil => intro b hb; simp [squeezeAux] at hb
  | cons c t ih =>
    intro b hb
    unfold squeezeAux at hb
    by_cases hw : wsChar c = true
    · rw [if_pos hw, if_pos rfl] at hb
      exact ih b hb
    · rw [if_neg hw] at hb
      rw [List.head?_cons, Option.some.injEq] at hb
      rw [← hb]
      exact Bool.of_not_eq_true hw

theorem squeezeAux_noWsRun : ∀ x : List Char,
    noWsRun (squeezeAux false x) ∧ noWsRun (squeezeAux true x) := by
  intro x
  induction x with
  | nil => exact ⟨trivial, trivial⟩
  | cons c t ih =>
    obtain ⟨ihF, ihT⟩ := ih
    by_cases hw : wsChar c = true
    · constructor
      · show noWsRun (squeezeAux false (c :: t))
        unfold squeezeAux
        rw [if_pos hw, if_neg (by simp)]
        exact noWsRun_cons_of_head (squeezeAux_headNotWs t) ihT
      · show noWsRun (squeezeAux true (c :: t))
        unfold squeezeAux
        rw [if_pos hw, if_pos rfl]
        exact ihT
    · have hw' : wsChar c = false := Bool.of_not_eq_true hw
      constructor
      · show noWsRun (squeezeAux false (c :: t))
        unfold squeezeAux
        rw [if_neg hw]
        exact noWsRun_cons_left hw' ihF
      · show noWsRun (squeezeAux true (c :: t))
        unfold squeezeAux
        rw [if_neg hw]
        exact noWsRun_cons_left hw' ihF

theorem squeezeAux_spaceOnly : ∀ (x : List Char) (b : Bool),
    spaceOnly (squeezeAux b x) := by
  intro x
  induction x with
  | nil => intro b c hc; simp [squeezeAux] at hc
  | cons a t ih =>
    intro b c hc hcw
    unfold squeezeAux at hc
    by_cases hw : wsChar a = true
    · rw [if_pos hw] at hc
      split at hc
      · exact ih true c hc hcw
      · rcases List.mem_cons.mp hc with h | h
        · exact h
        · exact ih true c h hcw
    · rw [if_neg hw] at hc
      rcases List.mem_cons.mp hc with h | h
      · subst h
        exact absurd hcw (by simp [Bool.of_not_eq_true hw])
      · exact ih false c h hcw

theorem squeezeAux_true_of_head {l : List Char}
    (h : ∀ b, l.head? = some b → wsChar b = false) :
    squeezeAux true l = squeezeAux false l := by
  cases l with
  | nil => rfl
  | cons c t => simp [squeezeAux, h c rfl]

theorem squeeze_fix : ∀ l : List Char, noWsRun l → spaceOnly l → squeeze l = l := by
  intro l
  induction l with
  | nil => intro _ _; rfl
  | cons c t ih =>
    intro h1 h2
    by_cases hw : wsChar c = true
    · have hc : c = ' ' := h2 c (List.mem_cons_self c t) hw
      show squeezeAux false (c :: t) = c :: t
      unfold squeezeAux
      rw [if_pos hw, if_neg (by simp)]
      have hhead : ∀ b, t.head? = some b → wsChar b = false := by
        intro b hb
        cases t with
        | nil => simp at hb
        | cons b' t' =>
          rw [List.head?_cons, Option.some.injEq] at hb
          rw [← hb]
          by_cases hwb : wsChar b' = true
          · exact absurd ⟨hw, hwb⟩ h1.1
          · exact Bool.of_not_eq_true hwb
      rw [squeezeAux_true_of_head hhead]
      have ht : squeezeAux false t = t :=
        ih (noWsRun_tail h1) (fun d hd hdw => h2 d (List.mem_cons_of_mem c hd) hdw)
      rw [ht, hc]
    · show squeezeAux false (c :: t) = c :: t
      unfold squeezeAux
      rw [if_neg hw]
      have ht : squeezeAux false t = t :=
        ih (noWsRun_tail h1) (fun d hd hdw => h2 d (List.mem_cons_of_mem c hd) hdw)
      rw [ht]

/-! ## `noWsRun` survives trimming -/

theorem noWsRun_iff_chain : ∀ l : List Char,
    noWsRun l ↔ List.Chain' (fun a b => ¬(wsChar a = true ∧ wsChar b = true)) l := by
  intro l
  induction l with
  | nil => simp [noWsRun]
  | cons a t ih =>
    cases t with
    | nil => simp [noWsRun]
    | cons b t' =>
      rw [List.chain'_cons, ← ih]
      show (¬(wsChar a = true ∧ wsChar b = true) ∧ noWsRun (b :: t')) ↔ _
      tauto

theorem noWsRun_reverse {l : List Char} (h : noWsRun l) : noWsRun l.reverse := by
  rw [noWsRun_iff_chain] at h ⊢
  rw [List.chain'_reverse]
  exact List.Chain'.imp (fun a b hab => by tauto) h

theorem noWsRun_dropWhile {p : Char → Bool} : ∀ {l : List Char},
    noWsRun l → noWsRun (l.dropWhile p) := by
  intro l
  induction l with
  | nil => intro h; exact h
  | cons a t ih =>
    intro h
    rw [List.dropWhile_cons]
    split
    · exact ih (noWsRun_tail h)
    · exact h

theorem noWsRun_pyStrip {l : List Char} (h : noWsRun l) : noWsRun (pyStrip l) :=
  noWsRun_reverse (noWsRun_dropWhile (noWsRun_reverse (noWsRun_dropWhile h)))

/-- C10: `normalize_title` is idempotent — its output (lowercase, markup-free,
punctuation-free, single-spaced, trimmed) is a fixed point of the function. -/
theorem dedup_C10 (s : String) :
    normalize_title (normalize_title s) = normalize_title s := by
  rw [normalize_pipeline s]
  set T := stripTags (s.data.map Char.toLower) with hT
  set r := pyStrip (squeeze (List.filter keepChar T)) with hr
  have hmemr : ∀ c ∈ r, c = ' ' ∨ c ∈ List.filter keepChar T := by
    intro c hc
    exact mem_squeezeAux false _ c (mem_pyStrip hc)
  have hkeep : ∀ c ∈ r, keepChar c = true := by
    intro c hc
    rcases hmemr c hc with h | h
    · rw [h]
      decide
    · exact (List.mem_filter.mp h).2
  have hnlt : ∀ c ∈ r, c ≠ '<' := by
    intro c hc hceq
    have hk := hkeep c hc
    rw [hceq] at hk
    exact absurd hk (by decide)
  have hlower : ∀ c ∈ r, Char.toLower c = c := by
    intro c hc
    rcases hmemr c hc with h | h
    · rw [h]
      decide
    · have hcT : c ∈ T := List.mem_of_mem_filter h
      have hcm : c ∈ s.data.map Char.toLower := mem_stripTags hcT
      obtain ⟨c', _, rfl⟩ := List.mem_map.mp hcm
      exact toLower_toLower c'
  have hnoWs : noWsRun r := noWsRun_pyStrip (squeezeAux_noWsRun _).1
  have hspace : spaceOnly r := fun c hc hw =>
    squeezeAux_spaceOnly (List.filter keepChar T) false c (mem_pyStrip hc) hw
  rw [normalize_pipeline (String.mk r)]
  show String.mk (pyStrip (squeeze (List.filter keepChar
    (stripTags (r.map Char.toLower))))) = String.mk r
  rw [map_eq_self_of hlower, stripTags_no_lt hnlt, List.filter_eq_self.mpr hkeep,
    squeeze_fix r hnoWs hspace, hr, pyStrip_idem]

end Dedup
